import Mathlib

/-!
Shallow embedding of `src/net/fetchAll.ts`: a bounded-concurrency task
runner.  The JavaScript runs on a single-threaded event loop; we model a
run as a sequence of discrete steps.  `startNextBatch` launches work
exactly as the source's while-loop does; the nondeterministic order in
which in-flight promises settle is captured by an explicit schedule: at
each completion event a number `k` picks which in-flight operation
settles next (as `k % inFlight.length`), so quantifying over all
schedules quantifies over all completion orders.
-/

namespace FetchAll

/-- Possible behaviours of one invocation of the caller-supplied
`fetchImpl`: return a promise that fulfills, return a promise that
rejects, or throw synchronously before any asynchronous step. -/
inductive OpOutcome (R E : Type) where
  | resolve (value : R)
  | asyncReject (error : E)
  | syncThrow (error : E)
deriving DecidableEq, Repr

/-- How `executeRequest`'s `try`/`catch` around
`await Promise.resolve(fetchImpl(urls[urlIndex]))` classifies an
invocation: both a synchronous throw and an asynchronous rejection land
in the `catch` block with the same error. -/
def settleOutcome {R E : Type} : OpOutcome R E → Except E R
  | .resolve v => .ok v
  | .asyncReject e => .error e
  | .syncThrow e => .error e

/-- The mutable state captured by the promise executor in `fetchAll`:
`results` (a fixed-size array whose slots start unpopulated, modelled by
`Option`), `failedRequests` (pushed in completion order),
`completedCount`, `inFlightCount`, `nextUrlIndex`.  `inFlight` is the
model's bookkeeping for which launched operations have not yet settled;
in the source it is implicit in the event loop's pending promises. -/
structure RunState (R E : Type) where
  results : List (Option R)
  failedRequests : List (Nat × E)
  completedCount : Nat
  inFlightCount : Nat
  nextUrlIndex : Nat
  inFlight : List Nat
deriving Repr

/-- The `startNextBatch` while-loop: while a concurrency slot is free and
input remains, claim the item at `nextUrlIndex`, bump the cursor and the
in-flight count, and launch `executeRequest` on it (the launch is
recorded by appending the index to `inFlight`). -/
def startNextBatch {R E : Type} (effLimit N : Nat) (s : RunState R E) : RunState R E :=
  if h : s.inFlightCount < effLimit ∧ s.nextUrlIndex < N then
    startNextBatch effLimit N
      { s with
        nextUrlIndex := s.nextUrlIndex + 1
        inFlightCount := s.inFlightCount + 1
        inFlight := s.inFlight ++ [s.nextUrlIndex] }
  else s
termination_by N - s.nextUrlIndex
decreasing_by omega

/-- The `try`/`catch` body of `executeRequest`: on success write the
result into its slot, on any caught error push `{index, error}` onto
`failedRequests`. -/
def recordOutcome {R E : Type} (urlIndex : Nat) (out : Except E R)
    (s : RunState R E) : RunState R E :=
  match out with
  | .ok v => { s with results := s.results.set urlIndex (some v) }
  | .error e => { s with failedRequests := s.failedRequests ++ [(urlIndex, e)] }

/-- One completion event: the schedule entry `k` picks which in-flight
operation settles (as `k % inFlight.length`).  The settled operation's
outcome is recorded by `executeRequest`'s `try`/`catch`, then its
`finally` block runs: decrement `inFlightCount`, increment
`completedCount`, and either hand off to `handleAllCompleted` (here:
stop, the terminal state is inspected separately) or backfill the freed
slot via `startNextBatch`. -/
def completeStep {R E : Type} (op : Nat → OpOutcome R E) (effLimit N : Nat)
    (k : Nat) (s : RunState R E) : RunState R E :=
  if s.inFlight.isEmpty then s
  else
    let j := k % s.inFlight.length
    let urlIndex := s.inFlight.getD j 0
    let s1 := recordOutcome urlIndex (settleOutcome (op urlIndex)) s
    let s2 := { s1 with
        inFlight := s1.inFlight.eraseIdx j
        inFlightCount := s1.inFlightCount - 1
        completedCount := s1.completedCount + 1 }
    if s2.completedCount = N then s2 else startNextBatch effLimit N s2

/-- Run the completion events dictated by a schedule, one `completeStep`
per entry. -/
def runAux {R E : Type} (op : Nat → OpOutcome R E) (effLimit N : Nat) :
    List Nat → RunState R E → RunState R E
  | [], s => s
  | k :: ks, s => runAux op effLimit N ks (completeStep op effLimit N k s)

/-- The state set up by the promise executor before any work starts:
`new Array(urls.length)` (all slots unpopulated), no failures, all
counters zero. -/
def initState (R E : Type) (N : Nat) : RunState R E :=
  ⟨List.replicate N none, [], 0, 0, 0, []⟩

/-- The whole asynchronous phase of a run: the initial
`startNextBatch()` call followed by the completion events of the
schedule. -/
def runPipeline {R E : Type} (op : Nat → OpOutcome R E) (effLimit N : Nat)
    (sched : List Nat) : RunState R E :=
  runAux op effLimit N sched (startNextBatch effLimit N (initState R E N))

/-- The two kinds of error `fetchAll` can reject with: the synchronous
validation error thrown by `validateInputs`, and the `AggregateError`
built by `handleAllCompleted` (carrying the underlying errors, the
human-readable message, and the structured `failed` list). -/
inductive FetchError (E : Type) where
  | invalidArgument (message : String)
  | aggregate (errors : List E) (message : String) (failed : List (Nat × E))
deriving DecidableEq, Repr

/-- `validateInputs`' check on `maxConcurrency`:
`Number.isInteger(maxConcurrency) && maxConcurrency > 0`.  The JS number
is modelled as a rational so that fractional inputs are expressible. -/
def validInputs (maxConcurrency : ℚ) : Bool :=
  maxConcurrency.den == 1 && maxConcurrency.num > 0

/-- `Math.min(maxConcurrency, urls.length)` for a validated
`maxConcurrency` (whose value is then its integer numerator). -/
def effectiveMaxConcurrency (maxConcurrency : ℚ) (N : Nat) : Nat :=
  min maxConcurrency.num.toNat N

/-- `handleAllCompleted`: with failures present, reject with the
aggregate error; otherwise resolve with the `results` array. -/
def handleAllCompleted {R E : Type} (N : Nat) (s : RunState R E) :
    Except (FetchError E) (List (Option R)) :=
  if s.failedRequests.length > 0 then
    .error (.aggregate (s.failedRequests.map Prod.snd)
      (toString s.failedRequests.length ++ " of " ++ toString N ++ " requests failed")
      s.failedRequests)
  else .ok s.results

/-- Observable result of one call to `fetchAll` under a given schedule:
`outcome` is `none` while the returned promise is still pending (it
settles only once `completedCount` reaches `urls.length`), and
`invocations` counts how many times `fetchImpl` was invoked (exactly the
claimed indices, i.e. the final cursor value). -/
structure FetchRun (R E : Type) where
  outcome : Option (Except (FetchError E) (List (Option R)))
  invocations : Nat
deriving Repr

/-- The full `fetchAll` entry point: validation, the empty-input early
exit, the clamped limit, then the scheduled asynchronous run. -/
def fetchAll {α R E : Type} [Inhabited α] (urls : List α) (maxConcurrency : ℚ)
    (fetchImpl : α → OpOutcome R E) (sched : List Nat) : FetchRun R E :=
  if ¬ validInputs maxConcurrency then
    ⟨some (.error (.invalidArgument "maxConcurrency must be a positive integer")), 0⟩
  else if urls.length = 0 then
    ⟨some (.ok []), 0⟩
  else
    let N := urls.length
    let eff := effectiveMaxConcurrency maxConcurrency N
    let op := fun i => fetchImpl (urls.getD i default)
    let final := runPipeline op eff N sched
    ⟨if final.completedCount = N then some (handleAllCompleted N final) else none,
      final.nextUrlIndex⟩

end FetchAll

namespace FetchAll

/-- The state invariant maintained between event-loop steps of a run:
counter bookkeeping, the concurrency bound, and the correspondence
between launched/settled indices and the `results`/`failedRequests`
collections. -/
structure Inv0 {R E : Type} (op : Nat → OpOutcome R E) (effLimit N : Nat)
    (s : RunState R E) : Prop where
  resLen : s.results.length = N
  flCount : s.inFlight.length = s.inFlightCount
  counts : s.completedCount + s.inFlightCount = s.nextUrlIndex
  cursorLe : s.nextUrlIndex ≤ N
  flLimit : s.inFlightCount ≤ effLimit
  flNodup : s.inFlight.Nodup
  flLt : ∀ i ∈ s.inFlight, i < s.nextUrlIndex
  flFresh : ∀ i ∈ s.inFlight, s.results[i]? = some none ∧ i ∉ s.failedRequests.map Prod.fst
  unlaunched : ∀ i, s.nextUrlIndex ≤ i → i < N →
    s.results[i]? = some none ∧ i ∉ s.failedRequests.map Prod.fst
  settledOk : ∀ i, i < s.nextUrlIndex → i ∉ s.inFlight →
    ∀ v, settleOutcome (op i) = Except.ok v →
      s.results[i]? = some (some v) ∧ i ∉ s.failedRequests.map Prod.fst
  settledErr : ∀ i, i < s.nextUrlIndex → i ∉ s.inFlight →
    ∀ e, settleOutcome (op i) = Except.error e →
      s.results[i]? = some none ∧ (i, e) ∈ s.failedRequests
  failedLaunched : ∀ p ∈ s.failedRequests, p.1 < s.nextUrlIndex ∧ p.1 ∉ s.inFlight
  failedCorrect : ∀ p ∈ s.failedRequests, settleOutcome (op p.1) = Except.error p.2
  failedNodup : (s.failedRequests.map Prod.fst).Nodup

/-- `Inv0` plus the fact that the admission loop has just drained: either
the concurrency budget is saturated or the cursor reached the end. -/
structure Inv {R E : Type} (op : Nat → OpOutcome R E) (effLimit N : Nat)
    (s : RunState R E) extends Inv0 op effLimit N s : Prop where
  batchDone : effLimit ≤ s.inFlightCount ∨ s.nextUrlIndex = N

/-- One iteration of the `startNextBatch` while-loop preserves `Inv0`. -/
theorem launch_inv0 {R E : Type} {op : Nat → OpOutcome R E} {effLimit N : Nat}
    {s : RunState R E} (hfl : s.inFlightCount < effLimit) (hnext : s.nextUrlIndex < N)
    (hs : Inv0 op effLimit N s) :
    Inv0 op effLimit N
      { s with
        nextUrlIndex := s.nextUrlIndex + 1
        inFlightCount := s.inFlightCount + 1
        inFlight := s.inFlight ++ [s.nextUrlIndex] } := by
  refine ⟨?_, ?_, ?_, ?_, ?_, ?_, ?_, ?_, ?_, ?_, ?_, ?_, ?_, ?_⟩
  · exact hs.resLen
  · simp [List.length_append, hs.flCount]
  · dsimp only; have := hs.counts; omega
  · dsimp only; omega
  · dsimp only; omega
  · exact List.nodup_append.mpr ⟨hs.flNodup, List.nodup_singleton _,
      fun a ha hb => by
        simp only [List.mem_singleton] at hb
        have := hs.flLt a ha
        omega⟩
  · intro i hi
    dsimp only
    rcases List.mem_append.mp hi with h | h
    · have := hs.flLt i h; omega
    · simp only [List.mem_singleton] at h; omega
  · intro i hi
    rcases List.mem_append.mp hi with h | h
    · exact hs.flFresh i h
    · simp only [List.mem_singleton] at h
      subst h
      exact hs.unlaunched _ (le_refl _) hnext
  · intro i hi hiN
    dsimp only at hi
    exact hs.unlaunched i (by omega) hiN
  · intro i hi hni v hv
    dsimp only at hi hni ⊢
    have hne : i ≠ s.nextUrlIndex := fun he =>
      hni (he ▸ List.mem_append.mpr (Or.inr (List.mem_singleton.mpr rfl)))
    have hni' : i ∉ s.inFlight := fun hmem =>
      hni (List.mem_append.mpr (Or.inl hmem))
    exact hs.settledOk i (by omega) hni' v hv
  · intro i hi hni e he
    dsimp only at hi hni ⊢
    have hne : i ≠ s.nextUrlIndex := fun hq =>
      hni (hq ▸ List.mem_append.mpr (Or.inr (List.mem_singleton.mpr rfl)))
    have hni' : i ∉ s.inFlight := fun hmem =>
      hni (List.mem_append.mpr (Or.inl hmem))
    exact hs.settledErr i (by omega) hni' e he
  · intro p hp
    have h1 := hs.failedLaunched p hp
    dsimp only
    refine ⟨by omega, fun hmem => ?_⟩
    rcases List.mem_append.mp hmem with h | h
    · exact h1.2 h
    · simp only [List.mem_singleton] at h
      have := h1.1
      omega
  · exact hs.failedCorrect
  · exact hs.failedNodup

/-- `startNextBatch` preserves `Inv0` and leaves the loop guard false,
establishing `Inv`. -/
theorem startNextBatch_spec {R E : Type} {op : Nat → OpOutcome R E}
    {effLimit N : Nat} :
    ∀ (m : Nat) (s : RunState R E), N - s.nextUrlIndex ≤ m →
      Inv0 op effLimit N s → Inv op effLimit N (startNextBatch effLimit N s) := by
  intro m
  induction m with
  | zero =>
    intro s hm hs
    have hguard : ¬ (s.inFlightCount < effLimit ∧ s.nextUrlIndex < N) := by omega
    rw [startNextBatch, dif_neg hguard]
    exact ⟨hs, Or.inr (by have := hs.cursorLe; omega)⟩
  | succ m ih =>
    intro s hm hs
    rw [startNextBatch]
    by_cases h : s.inFlightCount < effLimit ∧ s.nextUrlIndex < N
    · rw [dif_pos h]
      exact ih _ (by dsimp only; omega) (launch_inv0 h.1 h.2 hs)
    · rw [dif_neg h]
      exact ⟨hs, by have := hs.cursorLe; omega⟩

/-- `startNextBatch` does not change `completedCount`. -/
theorem startNextBatch_completed {R E : Type} {effLimit N : Nat} :
    ∀ (m : Nat) (s : RunState R E), N - s.nextUrlIndex ≤ m →
      (startNextBatch (R := R) (E := E) effLimit N s).completedCount = s.completedCount := by
  intro m
  induction m with
  | zero =>
    intro s hm
    have hguard : ¬ (s.inFlightCount < effLimit ∧ s.nextUrlIndex < N) := by omega
    rw [startNextBatch, dif_neg hguard]
  | succ m ih =>
    intro s hm
    rw [startNextBatch]
    by_cases h : s.inFlightCount < effLimit ∧ s.nextUrlIndex < N
    · rw [dif_pos h]
      exact ih _ (by dsimp only; omega)
    · rw [dif_neg h]

end FetchAll

namespace FetchAll

theorem recordOutcome_inFlight {R E : Type} (u : Nat) (out : Except E R)
    (s : RunState R E) : (recordOutcome u out s).inFlight = s.inFlight := by
  cases out <;> rfl

theorem recordOutcome_completedCount {R E : Type} (u : Nat) (out : Except E R)
    (s : RunState R E) : (recordOutcome u out s).completedCount = s.completedCount := by
  cases out <;> rfl

theorem recordOutcome_inFlightCount {R E : Type} (u : Nat) (out : Except E R)
    (s : RunState R E) : (recordOutcome u out s).inFlightCount = s.inFlightCount := by
  cases out <;> rfl

theorem recordOutcome_nextUrlIndex {R E : Type} (u : Nat) (out : Except E R)
    (s : RunState R E) : (recordOutcome u out s).nextUrlIndex = s.nextUrlIndex := by
  cases out <;> rfl

/-- Settling the in-flight operation at position `j` (the `try`/`catch`
record plus the `finally` counter updates) preserves `Inv0`. -/
theorem settle_inv0 {R E : Type} {op : Nat → OpOutcome R E} {effLimit N : Nat}
    {s : RunState R E} (hs : Inv0 op effLimit N s) {j : Nat}
    (hj : j < s.inFlight.length) :
    Inv0 op effLimit N
      { recordOutcome (s.inFlight.getD j 0)
          (settleOutcome (op (s.inFlight.getD j 0))) s with
        inFlight := (recordOutcome (s.inFlight.getD j 0)
          (settleOutcome (op (s.inFlight.getD j 0))) s).inFlight.eraseIdx j
        inFlightCount := (recordOutcome (s.inFlight.getD j 0)
          (settleOutcome (op (s.inFlight.getD j 0))) s).inFlightCount - 1
        completedCount := (recordOutcome (s.inFlight.getD j 0)
          (settleOutcome (op (s.inFlight.getD j 0))) s).completedCount + 1 } := by
  set u := s.inFlight.getD j 0 with hu
  have hjl : s.inFlight[j]? = some u := by
    rw [List.getElem?_eq_getElem hj, hu, List.getD_eq_getElem _ _ hj]
  have hu_mem : u ∈ s.inFlight := List.mem_iff_getElem?.mpr ⟨j, hjl⟩
  have hu_lt : u < s.nextUrlIndex := hs.flLt u hu_mem
  have hu_fresh := hs.flFresh u hu_mem
  have hu_ltN : u < N := lt_of_lt_of_le hu_lt hs.cursorLe
  have hu_len : u < s.results.length := by rw [hs.resLen]; exact hu_ltN
  have hflpos : 0 < s.inFlightCount := by
    have := hs.flCount; omega
  have hnotmem_erase : u ∉ s.inFlight.eraseIdx j := by
    intro hmem
    rcases List.mem_eraseIdx_iff_getElem?.mp hmem with ⟨i, hne, hi⟩
    have hil : i < s.inFlight.length := by
      rcases List.getElem?_eq_some_iff.mp hi with ⟨h, _⟩; exact h
    exact hne (List.get?_inj hil hs.flNodup
      (by rw [List.get?_eq_getElem?, List.get?_eq_getElem?, hi, hjl]))
  have herase_mem : ∀ i ∈ s.inFlight.eraseIdx j, i ∈ s.inFlight :=
    fun i hi => (List.eraseIdx_sublist s.inFlight j).subset hi
  have herase_ne : ∀ i ∈ s.inFlight.eraseIdx j, i ≠ u :=
    fun i hi he => hnotmem_erase (he ▸ hi)
  have hmem_erase_of_ne : ∀ i ∈ s.inFlight, i ≠ u → i ∈ s.inFlight.eraseIdx j := by
    intro i hi hne
    rcases List.getElem?_of_mem hi with ⟨i', hi'⟩
    refine List.mem_eraseIdx_iff_getElem?.mpr ⟨i', fun he => hne ?_, hi'⟩
    rw [he, hjl] at hi'
    exact (Option.some.inj hi').symm
  have hni_of : ∀ i, i ≠ u → i ∉ s.inFlight.eraseIdx j → i ∉ s.inFlight :=
    fun i hne hni hmem => hni (hmem_erase_of_ne i hmem hne)
  have herase_len : (s.inFlight.eraseIdx j).length = s.inFlightCount - 1 := by
    rw [List.length_eraseIdx]
    simp only [hj, if_pos]
    rw [hs.flCount]
  rcases hset : settleOutcome (op u) with e | v
  · -- operation failed: the entry (u, e) is pushed onto failedRequests
    simp only [recordOutcome]
    refine ⟨?_, ?_, ?_, ?_, ?_, ?_, ?_, ?_, ?_, ?_, ?_, ?_, ?_, ?_⟩
    · exact hs.resLen
    · exact herase_len
    · dsimp only; have := hs.counts; omega
    · exact hs.cursorLe
    · dsimp only; have := hs.flLimit; omega
    · exact List.Nodup.sublist (List.eraseIdx_sublist _ _) hs.flNodup
    · intro i hi
      dsimp only at hi ⊢
      exact hs.flLt i (herase_mem i hi)
    · intro i hi
      dsimp only at hi ⊢
      refine ⟨(hs.flFresh i (herase_mem i hi)).1, ?_⟩
      simp only [List.map_append, List.mem_append, List.map_cons, List.map_nil,
        List.mem_singleton, not_or]
      exact ⟨(hs.flFresh i (herase_mem i hi)).2, herase_ne i hi⟩
    · intro i hile hiN
      dsimp only at hile ⊢
      have hold := hs.unlaunched i hile hiN
      refine ⟨hold.1, ?_⟩
      simp only [List.map_append, List.mem_append, List.map_cons, List.map_nil,
        List.mem_singleton, not_or]
      exact ⟨hold.2, by omega⟩
    · intro i hi hni v' hv'
      dsimp only at hi hni ⊢
      by_cases hiu : i = u
      · rw [hiu, hset] at hv'
        cases hv'
      · have hni' : i ∉ s.inFlight := hni_of i hiu hni
        have hold := hs.settledOk i hi hni' v' hv'
        refine ⟨hold.1, ?_⟩
        simp only [List.map_append, List.mem_append, List.map_cons, List.map_nil,
          List.mem_singleton, not_or]
        exact ⟨hold.2, hiu⟩
    · intro i hi hni e' he'
      dsimp only at hi hni ⊢
      by_cases hiu : i = u
      · subst hiu
        rw [hset] at he'
        have hee : e' = e := (Except.error.inj he').symm
        subst hee
        exact ⟨hu_fresh.1, List.mem_append.mpr (Or.inr (List.mem_singleton.mpr rfl))⟩
      · have hni' : i ∉ s.inFlight := hni_of i hiu hni
        have hold := hs.settledErr i hi hni' e' he'
        exact ⟨hold.1, List.mem_append.mpr (Or.inl hold.2)⟩
    · intro p hp
      dsimp only at hp ⊢
      rcases List.mem_append.mp hp with h | h
      · have hold := hs.failedLaunched p h
        exact ⟨hold.1, fun hmem => hold.2 (herase_mem _ hmem)⟩
      · simp only [List.mem_singleton] at h
        subst h
        exact ⟨hu_lt, hnotmem_erase⟩
    · intro p hp
      dsimp only at hp
      rcases List.mem_append.mp hp with h | h
      · exact hs.failedCorrect p h
      · simp only [List.mem_singleton] at h
        subst h
        exact hset
    · dsimp only
      simp only [List.map_append, List.map_cons, List.map_nil]
      refine List.nodup_append.mpr ⟨hs.failedNodup, List.nodup_singleton _, ?_⟩
      intro a ha hb
      simp only [List.mem_singleton] at hb
      subst hb
      exact hu_fresh.2 ha
  · -- operation succeeded: the value is stored at results[u]
    simp only [recordOutcome]
    refine ⟨?_, ?_, ?_, ?_, ?_, ?_, ?_, ?_, ?_, ?_, ?_, ?_, ?_, ?_⟩
    · dsimp only; rw [List.length_set]; exact hs.resLen
    · exact herase_len
    · dsimp only; have := hs.counts; omega
    · exact hs.cursorLe
    · dsimp only; have := hs.flLimit; omega
    · exact List.Nodup.sublist (List.eraseIdx_sublist _ _) hs.flNodup
    · intro i hi
      dsimp only at hi ⊢
      exact hs.flLt i (herase_mem i hi)
    · intro i hi
      dsimp only at hi ⊢
      have hne : u ≠ i := fun he => herase_ne i hi he.symm
      rw [List.getElem?_set_ne hne]
      exact hs.flFresh i (herase_mem i hi)
    · intro i hile hiN
      dsimp only at hile ⊢
      have hne : u ≠ i := by omega
      rw [List.getElem?_set_ne hne]
      exact hs.unlaunched i hile hiN
    · intro i hi hni v' hv'
      dsimp only at hi hni ⊢
      by_cases hiu : i = u
      · subst hiu
        rw [hset] at hv'
        have hvv : v' = v := (Except.ok.inj hv').symm
        subst hvv
        rw [List.getElem?_set_eq_of_lt _ hu_len]
        exact ⟨rfl, hu_fresh.2⟩
      · have hni' : i ∉ s.inFlight := hni_of i hiu hni
        have hne : u ≠ i := fun he => hiu he.symm
        rw [List.getElem?_set_ne hne]
        exact hs.settledOk i hi hni' v' hv'
    · intro i hi hni e' he'
      dsimp only at hi hni ⊢
      by_cases hiu : i = u
      · rw [hiu, hset] at he'
        cases he'
      · have hni' : i ∉ s.inFlight := hni_of i hiu hni
        have hne : u ≠ i := fun he => hiu he.symm
        rw [List.getElem?_set_ne hne]
        exact hs.settledErr i hi hni' e' he'
    · intro p hp
      dsimp only at hp ⊢
      have hold := hs.failedLaunched p hp
      exact ⟨hold.1, fun hmem => hold.2 (herase_mem _ hmem)⟩
    · exact hs.failedCorrect
    · exact hs.failedNodup

/-- A completion event with nothing in flight does nothing. -/
theorem completeStep_of_empty {R E : Type} (op : Nat → OpOutcome R E)
    (effLimit N k : Nat) {s : RunState R E} (h : s.inFlight = []) :
    completeStep op effLimit N k s = s := by
  simp [completeStep, h]

/-- A completion event preserves the between-steps invariant. -/
theorem completeStep_inv {R E : Type} {op : Nat → OpOutcome R E}
    {effLimit N : Nat} (k : Nat) {s : RunState R E} (hs : Inv op effLimit N s) :
    Inv op effLimit N (completeStep op effLimit N k s) := by
  by_cases hemp : s.inFlight.isEmpty
  · rw [completeStep, if_pos hemp]
    exact hs
  · have hlen : 0 < s.inFlight.length := by
      cases hfl : s.inFlight with
      | nil => rw [hfl] at hemp; simp at hemp
      | cons a l => simp [hfl]
    have hj : k % s.inFlight.length < s.inFlight.length := Nat.mod_lt _ hlen
    have hcore := settle_inv0 hs.toInv0 hj
    rw [completeStep, if_neg hemp]
    dsimp only
    split
    next hterm =>
      refine ⟨hcore, Or.inr ?_⟩
      have h1 := hcore.counts
      have h2 := hcore.cursorLe
      have h3 := hs.flCount
      simp only [recordOutcome_completedCount, recordOutcome_inFlightCount,
        recordOutcome_nextUrlIndex, recordOutcome_inFlight] at h1 h2 hterm ⊢
      omega
    next hterm =>
      exact startNextBatch_spec N _ (Nat.sub_le _ _) hcore

/-- A completion event raises `completedCount` by at most one. -/
theorem completeStep_completed_le {R E : Type} (op : Nat → OpOutcome R E)
    (effLimit N k : Nat) (s : RunState R E) :
    (completeStep op effLimit N k s).completedCount ≤ s.completedCount + 1 := by
  by_cases hemp : s.inFlight.isEmpty
  · rw [completeStep, if_pos hemp]
    omega
  · rw [completeStep, if_neg hemp]
    dsimp only
    split
    · simp only [recordOutcome_completedCount]
      omega
    · rw [startNextBatch_completed N _ (Nat.sub_le _ _)]
      simp only [recordOutcome_completedCount]
      omega

/-- A completion event with work in flight raises `completedCount` by
exactly one. -/
theorem completeStep_completed_eq {R E : Type} (op : Nat → OpOutcome R E)
    (effLimit N k : Nat) {s : RunState R E} (hemp : ¬ s.inFlight.isEmpty) :
    (completeStep op effLimit N k s).completedCount = s.completedCount + 1 := by
  rw [completeStep, if_neg hemp]
  dsimp only
  split
  · simp only [recordOutcome_completedCount]
  · rw [startNextBatch_completed N _ (Nat.sub_le _ _)]
    simp only [recordOutcome_completedCount]

/-- Running any schedule preserves the invariant. -/
theorem runAux_inv {R E : Type} {op : Nat → OpOutcome R E} {effLimit N : Nat} :
    ∀ (sched : List Nat) (s : RunState R E), Inv op effLimit N s →
      Inv op effLimit N (runAux op effLimit N sched s) := by
  intro sched
  induction sched with
  | nil => intro s hs; exact hs
  | cons k ks ih => intro s hs; exact ih _ (completeStep_inv k hs)

/-- `completedCount` grows by at most the number of schedule entries. -/
theorem runAux_completed_le {R E : Type} (op : Nat → OpOutcome R E)
    (effLimit N : Nat) :
    ∀ (sched : List Nat) (s : RunState R E),
      (runAux op effLimit N sched s).completedCount ≤ s.completedCount + sched.length := by
  intro sched
  induction sched with
  | nil => intro s; simp [runAux]
  | cons k ks ih =>
    intro s
    calc (runAux op effLimit N ks (completeStep op effLimit N k s)).completedCount
        ≤ (completeStep op effLimit N k s).completedCount + ks.length := ih _
      _ ≤ s.completedCount + 1 + ks.length := by
          have := completeStep_completed_le op effLimit N k s; omega
      _ = s.completedCount + (k :: ks).length := by simp; omega

/-- With a positive effective limit and enough schedule entries, the run
reaches the terminal state `completedCount = N`. -/
theorem runAux_terminal {R E : Type} {op : Nat → OpOutcome R E}
    {effLimit N : Nat} (heff : 1 ≤ effLimit) :
    ∀ (sched : List Nat) (s : RunState R E), Inv op effLimit N s →
      N ≤ s.completedCount + sched.length →
      (runAux op effLimit N sched s).completedCount = N := by
  intro sched
  induction sched with
  | nil =>
    intro s hs hn
    have h1 := hs.counts
    have h2 := hs.cursorLe
    simp only [runAux]
    simp only [List.length_nil] at hn
    omega
  | cons k ks ih =>
    intro s hs hn
    by_cases hc : s.completedCount = N
    · have hfl : s.inFlightCount = 0 := by
        have h1 := hs.counts
        have h2 := hs.cursorLe
        omega
      have hempty : s.inFlight = [] :=
        List.length_eq_zero.mp (by rw [hs.flCount, hfl])
      show (runAux op effLimit N ks (completeStep op effLimit N k s)).completedCount = N
      rw [completeStep_of_empty op effLimit N k hempty]
      exact ih s hs (by simp only [List.length_cons] at hn; omega)
    · have hflpos : 0 < s.inFlightCount := by
        rcases hs.batchDone with h | h
        · omega
        · have h1 := hs.counts
          omega
      have hemp : ¬ s.inFlight.isEmpty := by
        rw [List.isEmpty_iff]
        intro hnil
        have := hs.flCount
        rw [hnil] at this
        simp at this
        omega
      show (runAux op effLimit N ks (completeStep op effLimit N k s)).completedCount = N
      refine ih _ (completeStep_inv k hs) ?_
      rw [completeStep_completed_eq op effLimit N k hemp]
      simp only [List.length_cons] at hn
      omega

/-- The invariant holds for the state the promise executor sets up. -/
theorem initState_inv0 {R E : Type} (op : Nat → OpOutcome R E) (effLimit N : Nat) :
    Inv0 op effLimit N (initState R E N) := by
  refine ⟨?_, ?_, ?_, ?_, ?_, ?_, ?_, ?_, ?_, ?_, ?_, ?_, ?_, ?_⟩ <;>
    simp [initState]
  intro i hiN
  simp [List.getElem?_replicate, hiN]

/-- After the initial batch and any schedule, the invariant holds. -/
theorem runPipeline_inv {R E : Type} (op : Nat → OpOutcome R E)
    (effLimit N : Nat) (sched : List Nat) :
    Inv op effLimit N (runPipeline op effLimit N sched) :=
  runAux_inv sched _
    (startNextBatch_spec N _ (Nat.sub_le _ _) (initState_inv0 op effLimit N))

/-- The run settles at most one operation per schedule entry. -/
theorem runPipeline_completed_le {R E : Type} (op : Nat → OpOutcome R E)
    (effLimit N : Nat) (sched : List Nat) :
    (runPipeline op effLimit N sched).completedCount ≤ sched.length := by
  have h := runAux_completed_le op effLimit N sched
    (startNextBatch effLimit N (initState R E N))
  rw [startNextBatch_completed N _ (Nat.sub_le _ _)] at h
  simpa [initState] using h

/-- With a positive effective limit and enough schedule entries, every
operation settles. -/
theorem runPipeline_terminal {R E : Type} {op : Nat → OpOutcome R E}
    {effLimit N : Nat} (heff : 1 ≤ effLimit) (sched : List Nat)
    (hsched : N ≤ sched.length) :
    (runPipeline op effLimit N sched).completedCount = N := by
  refine runAux_terminal heff sched _
    (startNextBatch_spec N _ (Nat.sub_le _ _) (initState_inv0 op effLimit N)) ?_
  rw [startNextBatch_completed N _ (Nat.sub_le _ _)]
  simpa [initState] using hsched

/-- In a terminal state the cursor has consumed all input and nothing is
in flight. -/
theorem terminal_state {R E : Type} {op : Nat → OpOutcome R E}
    {effLimit N : Nat} {s : RunState R E} (hs : Inv op effLimit N s)
    (hc : s.completedCount = N) :
    s.nextUrlIndex = N ∧ s.inFlight = [] ∧ s.inFlightCount = 0 := by
  have h1 := hs.counts
  have h2 := hs.cursorLe
  have hfl : s.inFlightCount = 0 := by omega
  exact ⟨by omega, List.length_eq_zero.mp (by rw [hs.flCount, hfl]), hfl⟩

/-- In a terminal run state, a successfully settling operation has its
value in its slot and its index absent from the failure list. -/
theorem final_settledOk {R E : Type} {op : Nat → OpOutcome R E}
    {effLimit N : Nat} {s : RunState R E} (hs : Inv op effLimit N s)
    (hc : s.completedCount = N) :
    ∀ i, i < N → ∀ v, settleOutcome (op i) = Except.ok v →
      s.results[i]? = some (some v) ∧ i ∉ s.failedRequests.map Prod.fst := by
  obtain ⟨hnext, hfl, _⟩ := terminal_state hs hc
  intro i hi v hv
  exact hs.settledOk i (by omega) (by simp [hfl]) v hv

/-- In a terminal run state, a failing operation has an unpopulated slot
and its `{index, error}` entry in the failure list. -/
theorem final_settledErr {R E : Type} {op : Nat → OpOutcome R E}
    {effLimit N : Nat} {s : RunState R E} (hs : Inv op effLimit N s)
    (hc : s.completedCount = N) :
    ∀ i, i < N → ∀ e, settleOutcome (op i) = Except.error e →
      s.results[i]? = some none ∧ (i, e) ∈ s.failedRequests := by
  obtain ⟨hnext, hfl, _⟩ := terminal_state hs hc
  intro i hi e he
  exact hs.settledErr i (by omega) (by simp [hfl]) e he

/-- If every operation settles successfully, the failure list of a
terminal state is empty. -/
theorem final_noFailures {R E : Type} {op : Nat → OpOutcome R E}
    {effLimit N : Nat} {s : RunState R E} (hs : Inv op effLimit N s)
    (hc : s.completedCount = N)
    (hsucc : ∀ i, i < N → ∃ v, settleOutcome (op i) = Except.ok v) :
    s.failedRequests = [] := by
  rw [List.eq_nil_iff_forall_not_mem]
  intro p hp
  have h1 := hs.failedCorrect p hp
  have h2 := (hs.failedLaunched p hp).1
  have hnext := (terminal_state hs hc).1
  rcases hsucc p.1 (by omega) with ⟨v, hv⟩
  rw [h1] at hv
  cases hv

theorem handleAllCompleted_ok {R E : Type} (N : Nat) {s : RunState R E}
    (h : s.failedRequests = []) : handleAllCompleted N s = Except.ok s.results := by
  simp [handleAllCompleted, h]

theorem handleAllCompleted_err {R E : Type} (N : Nat) {s : RunState R E}
    (h : s.failedRequests ≠ []) :
    handleAllCompleted N s = Except.error (FetchError.aggregate
      (s.failedRequests.map Prod.snd)
      (toString s.failedRequests.length ++ " of " ++ toString N ++ " requests failed")
      s.failedRequests) := by
  rw [handleAllCompleted, if_pos (List.length_pos.mpr h)]

/-- With valid arguments and a nonempty input, `fetchAll` reduces to the
scheduled run. -/
theorem fetchAll_run {α R E : Type} [Inhabited α] (urls : List α) (q : ℚ)
    (fetchImpl : α → OpOutcome R E) (sched : List Nat)
    (hvalid : validInputs q = true) (hN : ¬ urls.length = 0) :
    fetchAll urls q fetchImpl sched =
      ⟨if (runPipeline (fun i => fetchImpl (urls.getD i default))
            (effectiveMaxConcurrency q urls.length) urls.length sched).completedCount
            = urls.length
        then some (handleAllCompleted urls.length
          (runPipeline (fun i => fetchImpl (urls.getD i default))
            (effectiveMaxConcurrency q urls.length) urls.length sched))
        else none,
       (runPipeline (fun i => fetchImpl (urls.getD i default))
          (effectiveMaxConcurrency q urls.length) urls.length sched).nextUrlIndex⟩ := by
  unfold fetchAll
  rw [if_neg (by simp [hvalid]), if_neg hN]

/-- An invalid `maxConcurrency` makes `fetchAll` throw the validation
error before any work starts. -/
theorem fetchAll_of_invalid {α R E : Type} [Inhabited α] (urls : List α)
    (q : ℚ) (fetchImpl : α → OpOutcome R E) (sched : List Nat)
    (hq : validInputs q = false) :
    fetchAll urls q fetchImpl sched =
      ⟨some (Except.error (FetchError.invalidArgument
        "maxConcurrency must be a positive integer")), 0⟩ := by
  unfold fetchAll
  rw [if_pos (by simp [hq])]

/-- Empty input short-circuits to the immediately-successful empty
result. -/
theorem fetchAll_of_empty {α R E : Type} [Inhabited α] (q : ℚ)
    (fetchImpl : α → OpOutcome R E) (sched : List Nat)
    (hvalid : validInputs q = true) :
    fetchAll ([] : List α) q fetchImpl sched = ⟨some (Except.ok []), 0⟩ := by
  unfold fetchAll
  have hc : ([] : List α).length = 0 := rfl
  rw [if_neg (by simp [hvalid]), if_pos hc]

/-- A validated limit together with a nonempty input yields a positive
effective concurrency limit. -/
theorem effectiveMaxConcurrency_pos (q : ℚ) (N : Nat)
    (hvalid : validInputs q = true) (hN : 0 < N) :
    1 ≤ effectiveMaxConcurrency q N := by
  simp only [validInputs, Bool.and_eq_true, beq_iff_eq, decide_eq_true_eq] at hvalid
  have h1 : 1 ≤ q.num.toNat := by omega
  exact le_min h1 hN

/-- C1: for every list of items and every valid positive integer limit,
if every invocation of the operation function succeeds, then `fetchAll`
resolves, under every completion schedule, with a result list whose
length equals `items.length` in which the slot at index `i` is populated
with the result of the operation applied to the item at index `i` —
output order equals input order regardless of completion order. -/
theorem fetchAll_success_ordered {α R E : Type} [Inhabited α]
    (urls : List α) (q : ℚ) (fetchImpl : α → OpOutcome R E) (sched : List Nat)
    (hvalid : validInputs q = true)
    (hsched : urls.length ≤ sched.length)
    (hsucc : ∀ u ∈ urls, ∃ v, fetchImpl u = OpOutcome.resolve v) :
    ∃ res : List (Option R),
      (fetchAll urls q fetchImpl sched).outcome = some (Except.ok res) ∧
      res.length = urls.length ∧
      ∀ (i : Nat) (h : i < urls.length) (v : R),
        fetchImpl (urls.get ⟨i, h⟩) = OpOutcome.resolve v →
          res[i]? = some (some v) := by
  by_cases hN : urls.length = 0
  · refine ⟨[], ?_, by simp [hN], fun i h v _ => absurd h (by omega)⟩
    unfold fetchAll
    rw [if_neg (by simp [hvalid]), if_pos hN]
  · have hNpos : 0 < urls.length := Nat.pos_of_ne_zero hN
    have heff := effectiveMaxConcurrency_pos q urls.length hvalid hNpos
    have hinv := runPipeline_inv (fun i => fetchImpl (urls.getD i default))
      (effectiveMaxConcurrency q urls.length) urls.length sched
    have hterm := @runPipeline_terminal R E (fun i => fetchImpl (urls.getD i default))
      (effectiveMaxConcurrency q urls.length) urls.length heff sched hsched
    have hopok : ∀ i, i < urls.length →
        ∃ v, settleOutcome ((fun i => fetchImpl (urls.getD i default)) i)
          = Except.ok v := by
      intro i hi
      rcases hsucc (urls.getD i default)
        (by rw [List.getD_eq_getElem urls default hi]; exact List.getElem_mem hi)
        with ⟨v, hv⟩
      exact ⟨v, by dsimp only; rw [hv]; rfl⟩
    have hnofail := final_noFailures hinv hterm hopok
    refine ⟨_, ?_, hinv.resLen, ?_⟩
    · rw [fetchAll_run urls q fetchImpl sched hvalid hN]
      dsimp only
      rw [if_pos hterm, handleAllCompleted_ok _ hnofail]
    · intro i hi v hv
      refine (final_settledOk hinv hterm i hi v ?_).1
      dsimp only
      rw [List.get_eq_getElem] at hv
      rw [List.getD_eq_getElem urls default hi, hv]
      rfl

/-- C2: after the initial batch and any number of completion events of
any schedule, `0 ≤ inFlightCount ≤ effectiveLimit` holds, where the
effective limit is `min(limit, items.length)`. -/
theorem inFlight_bounded {R E : Type} (op : Nat → OpOutcome R E) (q : ℚ)
    (N : Nat) (sched : List Nat) :
    0 ≤ (runPipeline op (effectiveMaxConcurrency q N) N sched).inFlightCount ∧
    (runPipeline op (effectiveMaxConcurrency q N) N sched).inFlightCount
      ≤ effectiveMaxConcurrency q N ∧
    effectiveMaxConcurrency q N = min q.num.toNat N :=
  ⟨Nat.zero_le _, (runPipeline_inv op _ N sched).flLimit, rfl⟩

/-- C3: whenever at least one operation invocation fails, `fetchAll`
rejects with a single combined error carrying the full list of
underlying errors, the human-readable summary "k of N requests failed",
and the structured `{index, error}` list containing an entry for every
failed item (each index exactly once); the success branch with a partial
result list is never taken. -/
theorem fetchAll_failure_aggregated {α R E : Type} [Inhabited α]
    (urls : List α) (q : ℚ) (fetchImpl : α → OpOutcome R E) (sched : List Nat)
    (hvalid : validInputs q = true)
    (hsched : urls.length ≤ sched.length)
    (hfail : ∃ (i : Nat) (h : i < urls.length) (e : E),
      settleOutcome (fetchImpl (urls.get ⟨i, h⟩)) = Except.error e) :
    ∃ failed : List (Nat × E),
      (fetchAll urls q fetchImpl sched).outcome = some (Except.error
        (FetchError.aggregate (failed.map Prod.snd)
          (toString failed.length ++ " of " ++ toString urls.length
            ++ " requests failed")
          failed)) ∧
      failed ≠ [] ∧
      (∀ p ∈ failed, ∃ h : p.1 < urls.length,
        settleOutcome (fetchImpl (urls.get ⟨p.1, h⟩)) = Except.error p.2) ∧
      (∀ (i : Nat) (h : i < urls.length) (e : E),
        settleOutcome (fetchImpl (urls.get ⟨i, h⟩)) = Except.error e →
          (i, e) ∈ failed) ∧
      (failed.map Prod.fst).Nodup := by
  rcases hfail with ⟨i0, hi0, e0, he0⟩
  have hN : ¬ urls.length = 0 := by omega
  have hNpos : 0 < urls.length := Nat.pos_of_ne_zero hN
  have heff := effectiveMaxConcurrency_pos q urls.length hvalid hNpos
  have hinv := runPipeline_inv (fun i => fetchImpl (urls.getD i default))
    (effectiveMaxConcurrency q urls.length) urls.length sched
  have hterm := @runPipeline_terminal R E (fun i => fetchImpl (urls.getD i default))
    (effectiveMaxConcurrency q urls.length) urls.length heff sched hsched
  have hcv : ∀ (i : Nat) (hi : i < urls.length),
      settleOutcome ((fun i => fetchImpl (urls.getD i default)) i)
        = settleOutcome (fetchImpl (urls.get ⟨i, hi⟩)) := by
    intro i hi
    dsimp only
    rw [List.getD_eq_getElem urls default hi, List.get_eq_getElem]
  have hmem0 : (i0, e0) ∈ (runPipeline (fun i => fetchImpl (urls.getD i default))
      (effectiveMaxConcurrency q urls.length) urls.length sched).failedRequests := by
    refine (final_settledErr hinv hterm i0 hi0 e0 ?_).2
    rw [hcv i0 hi0]
    exact he0
  have hne : (runPipeline (fun i => fetchImpl (urls.getD i default))
      (effectiveMaxConcurrency q urls.length) urls.length sched).failedRequests
      ≠ [] := List.ne_nil_of_mem hmem0
  refine ⟨_, ?_, hne, ?_, ?_, hinv.failedNodup⟩
  · rw [fetchAll_run urls q fetchImpl sched hvalid hN]
    dsimp only
    rw [if_pos hterm, handleAllCompleted_err _ hne]
  · intro p hp
    have h1 := hinv.failedCorrect p hp
    have h2 := (hinv.failedLaunched p hp).1
    have h3 := (terminal_state hinv hterm).1
    have hplt : p.1 < urls.length := by omega
    refine ⟨hplt, ?_⟩
    rw [← hcv p.1 hplt]
    exact h1
  · intro i hi e he
    refine (final_settledErr hinv hterm i hi e ?_).2
    rw [hcv i hi]
    exact he

/-- C4: the run never aborts early — with a valid limit and enough
schedule entries every operation is invoked and the outcome (success or
aggregate failure) is delivered, while with fewer completion events than
items no outcome is ever surfaced, so the aggregate failure is only
surfaced after every operation has settled. -/
theorem fetchAll_waits_for_all {α R E : Type} [Inhabited α]
    (urls : List α) (q : ℚ) (fetchImpl : α → OpOutcome R E) (sched : List Nat)
    (hvalid : validInputs q = true) :
    (urls.length ≤ sched.length →
      (fetchAll urls q fetchImpl sched).invocations = urls.length ∧
      (fetchAll urls q fetchImpl sched).outcome ≠ none) ∧
    (sched.length < urls.length →
      (fetchAll urls q fetchImpl sched).outcome = none) := by
  constructor
  · intro hsched
    by_cases hN : urls.length = 0
    · have : fetchAll urls q fetchImpl sched = ⟨some (Except.ok []), 0⟩ := by
        unfold fetchAll
        rw [if_neg (by simp [hvalid]), if_pos hN]
      rw [this, hN]
      exact ⟨rfl, by simp⟩
    · have hNpos : 0 < urls.length := Nat.pos_of_ne_zero hN
      have heff := effectiveMaxConcurrency_pos q urls.length hvalid hNpos
      have hinv := runPipeline_inv (fun i => fetchImpl (urls.getD i default))
        (effectiveMaxConcurrency q urls.length) urls.length sched
      have hterm := @runPipeline_terminal R E
        (fun i => fetchImpl (urls.getD i default))
        (effectiveMaxConcurrency q urls.length) urls.length heff sched hsched
      rw [fetchAll_run urls q fetchImpl sched hvalid hN]
      dsimp only
      rw [if_pos hterm]
      exact ⟨(terminal_state hinv hterm).1, by simp⟩
  · intro hsched
    have hN : ¬ urls.length = 0 := by omega
    have hlt := runPipeline_completed_le (fun i => fetchImpl (urls.getD i default))
      (effectiveMaxConcurrency q urls.length) urls.length sched
    rw [fetchAll_run urls q fetchImpl sched hvalid hN]
    dsimp only
    rw [if_neg (by omega)]

/-- C5: an invalid limit (not a positive integer: zero or negative, or
with a fractional part) makes `fetchAll` fail immediately with the
`InvalidArgument` error, with the operation function invoked zero times;
this error kind is distinct from the aggregate runtime failure.  (The
"items is not an array" arm of the source check cannot fire here: the
embedding's `urls` is always a list.) -/
theorem fetchAll_invalid_limit {α R E : Type} [Inhabited α]
    (urls : List α) (q : ℚ) (fetchImpl : α → OpOutcome R E) (sched : List Nat)
    (hq : validInputs q = false) :
    fetchAll urls q fetchImpl sched =
      ⟨some (Except.error (FetchError.invalidArgument
        "maxConcurrency must be a positive integer")), 0⟩ ∧
    ∀ (errs : List E) (msg : String) (failed : List (Nat × E)),
      (FetchError.invalidArgument
        "maxConcurrency must be a positive integer" : FetchError E)
        ≠ FetchError.aggregate errs msg failed := by
  refine ⟨fetchAll_of_invalid urls q fetchImpl sched hq, ?_⟩
  intro errs msg failed h
  cases h

theorem completeStep_congr {R E : Type} {op op2 : Nat → OpOutcome R E}
    (h : ∀ i, settleOutcome (op i) = settleOutcome (op2 i))
    (effLimit N k : Nat) (s : RunState R E) :
    completeStep op effLimit N k s = completeStep op2 effLimit N k s := by
  simp only [completeStep, h]

theorem runAux_congr {R E : Type} {op op2 : Nat → OpOutcome R E}
    (h : ∀ i, settleOutcome (op i) = settleOutcome (op2 i)) (effLimit N : Nat) :
    ∀ (sched : List Nat) (s : RunState R E),
      runAux op effLimit N sched s = runAux op2 effLimit N sched s := by
  intro sched
  induction sched with
  | nil => intro s; rfl
  | cons k ks ih =>
    intro s
    simp only [runAux]
    rw [completeStep_congr h, ih]

theorem runPipeline_congr {R E : Type} {op op2 : Nat → OpOutcome R E}
    (h : ∀ i, settleOutcome (op i) = settleOutcome (op2 i))
    (effLimit N : Nat) (sched : List Nat) :
    runPipeline op effLimit N sched = runPipeline op2 effLimit N sched :=
  runAux_congr h effLimit N sched _

/-- C6: a synchronous throw inside the operation function is caught and
recorded exactly like an asynchronous rejection: `executeRequest`'s
handler produces the same state for both fault modes, and more generally
two operation functions whose invocations settle identically (e.g. one
throwing synchronously where the other rejects asynchronously) give
`fetchAll` runs with identical observable outcomes. -/
theorem sync_throw_like_async_reject {α R E : Type} [Inhabited α] :
    (∀ (i : Nat) (e : E) (s : RunState R E),
      recordOutcome i (settleOutcome (OpOutcome.syncThrow e)) s =
        recordOutcome i (settleOutcome (OpOutcome.asyncReject e)) s) ∧
    (∀ (urls : List α) (q : ℚ) (f g : α → OpOutcome R E) (sched : List Nat),
      (∀ u, settleOutcome (f u) = settleOutcome (g u)) →
      fetchAll urls q f sched = fetchAll urls q g sched) := by
  refine ⟨fun i e s => rfl, fun urls q f g sched h => ?_⟩
  by_cases hval : validInputs q = true
  · by_cases hN : urls.length = 0
    · have hnil : urls = [] := List.length_eq_zero.mp hN
      subst hnil
      rw [fetchAll_of_empty q f sched hval, fetchAll_of_empty q g sched hval]
    · rw [fetchAll_run urls q f sched hval hN,
        fetchAll_run urls q g sched hval hN,
        runPipeline_congr (fun i => h (urls.getD i default))
          (effectiveMaxConcurrency q urls.length) urls.length sched]
  · have hq : validInputs q = false := by
      cases hb : validInputs q
      · rfl
      · exact absurd hb hval
    rw [fetchAll_of_invalid urls q f sched hq, fetchAll_of_invalid urls q g sched hq]

/-- C7: in the terminal state of every completed run on valid input,
every index `i < items.length` is represented in exactly one of the two
outcome collections: either slot `i` of `results` is populated and `i`
has no entry in the failure list, or slot `i` is unpopulated and an
entry with index `i` is in the failure list — and indices appear in the
failure list at most once. -/
theorem fetchAll_index_partition {R E : Type} (op : Nat → OpOutcome R E)
    (q : ℚ) (N : Nat) (sched : List Nat)
    (hvalid : validInputs q = true) (hN : 0 < N) (hsched : N ≤ sched.length) :
    ((runPipeline op (effectiveMaxConcurrency q N) N sched).failedRequests.map
      Prod.fst).Nodup ∧
    ∀ i, i < N →
      ((∃ v, (runPipeline op (effectiveMaxConcurrency q N) N
          sched).results[i]? = some (some v)) ∧
        ∀ e, (i, e) ∉ (runPipeline op (effectiveMaxConcurrency q N) N
          sched).failedRequests) ∨
      ((runPipeline op (effectiveMaxConcurrency q N) N
          sched).results[i]? = some none ∧
        ∃ e, (i, e) ∈ (runPipeline op (effectiveMaxConcurrency q N) N
          sched).failedRequests) := by
  have heff := effectiveMaxConcurrency_pos q N hvalid hN
  have hinv := runPipeline_inv op (effectiveMaxConcurrency q N) N sched
  have hterm := @runPipeline_terminal R E op (effectiveMaxConcurrency q N) N
    heff sched hsched
  refine ⟨hinv.failedNodup, fun i hi => ?_⟩
  rcases hset : settleOutcome (op i) with e | v
  · exact Or.inr ⟨(final_settledErr hinv hterm i hi e hset).1,
      e, (final_settledErr hinv hterm i hi e hset).2⟩
  · refine Or.inl ⟨⟨v, (final_settledOk hinv hterm i hi v hset).1⟩, fun e hmem =>
      (final_settledOk hinv hterm i hi v hset).2 ?_⟩
    exact List.mem_map.mpr ⟨(i, e), hmem, rfl⟩

/-- C8: with an empty items list and a valid limit, `fetchAll` succeeds
immediately with the empty result list and zero operation invocations. -/
theorem fetchAll_empty_input {α R E : Type} [Inhabited α] (q : ℚ)
    (fetchImpl : α → OpOutcome R E) (sched : List Nat)
    (hvalid : validInputs q = true) :
    fetchAll ([] : List α) q fetchImpl sched = ⟨some (Except.ok []), 0⟩ :=
  fetchAll_of_empty q fetchImpl sched hvalid

/-- Witness for C1 at a concrete input with an out-of-order completion
schedule. -/
theorem fetchAll_success_ordered_witness :
    ∃ res : List (Option Nat),
      (fetchAll [10, 20, 30] 3
        (fun u => OpOutcome.resolve (u + 1) : Nat → OpOutcome Nat String)
        [2, 0, 0]).outcome = some (Except.ok res) ∧
      res.length = ([10, 20, 30] : List Nat).length ∧
      ∀ (i : Nat) (h : i < ([10, 20, 30] : List Nat).length) (v : Nat),
        (fun u => OpOutcome.resolve (u + 1) : Nat → OpOutcome Nat String)
            (([10, 20, 30] : List Nat).get ⟨i, h⟩) = OpOutcome.resolve v →
          res[i]? = some (some v) :=
  fetchAll_success_ordered [10, 20, 30] 3
    (fun u => OpOutcome.resolve (u + 1)) [2, 0, 0]
    (by decide) (by decide) (fun u _ => ⟨u + 1, rfl⟩)

/-- Witness for C3 at a concrete input with two failing items. -/
theorem fetchAll_failure_aggregated_witness :
    ∃ failed : List (Nat × String),
      (fetchAll [10, 20, 30, 40] 2
        (fun u => if u % 20 = 0 then OpOutcome.asyncReject "boom"
          else OpOutcome.resolve u : Nat → OpOutcome Nat String)
        [1, 1, 0, 0]).outcome = some (Except.error
        (FetchError.aggregate (failed.map Prod.snd)
          (toString failed.length ++ " of "
            ++ toString ([10, 20, 30, 40] : List Nat).length
            ++ " requests failed")
          failed)) ∧
      failed ≠ [] ∧
      (∀ p ∈ failed, ∃ h : p.1 < ([10, 20, 30, 40] : List Nat).length,
        settleOutcome ((fun u => if u % 20 = 0 then OpOutcome.asyncReject "boom"
            else OpOutcome.resolve u : Nat → OpOutcome Nat String)
          (([10, 20, 30, 40] : List Nat).get ⟨p.1, h⟩)) = Except.error p.2) ∧
      (∀ (i : Nat) (h : i < ([10, 20, 30, 40] : List Nat).length) (e : String),
        settleOutcome ((fun u => if u % 20 = 0 then OpOutcome.asyncReject "boom"
            else OpOutcome.resolve u : Nat → OpOutcome Nat String)
          (([10, 20, 30, 40] : List Nat).get ⟨i, h⟩)) = Except.error e →
          (i, e) ∈ failed) ∧
      (failed.map Prod.fst).Nodup :=
  fetchAll_failure_aggregated [10, 20, 30, 40] 2
    (fun u => if u % 20 = 0 then OpOutcome.asyncReject "boom"
      else OpOutcome.resolve u) [1, 1, 0, 0]
    (by decide) (by decide) (by refine ⟨1, by decide, "boom", ?_⟩; rfl)

/-- Witness for C4: a full schedule settles everything even though all
operations fail, and a schedule one event short leaves the promise
pending. -/
theorem fetchAll_waits_for_all_witness :
    (fetchAll [10, 20, 30] 2
      (fun u => OpOutcome.asyncReject "err" : Nat → OpOutcome Nat String)
      [0, 0, 0]).invocations = ([10, 20, 30] : List Nat).length ∧
    (fetchAll [10, 20, 30] 2
      (fun u => OpOutcome.asyncReject "err" : Nat → OpOutcome Nat String)
      [0, 0]).outcome = none :=
  ⟨((fetchAll_waits_for_all [10, 20, 30] 2
      (fun u => OpOutcome.asyncReject "err") [0, 0, 0] (by decide)).1
      (by decide)).1,
    (fetchAll_waits_for_all [10, 20, 30] 2
      (fun u => OpOutcome.asyncReject "err") [0, 0] (by decide)).2 (by decide)⟩

/-- Witness for C5 at the invalid limit `0`. -/
theorem fetchAll_invalid_limit_witness :
    fetchAll ([10] : List Nat) 0
        (fun u => OpOutcome.resolve u : Nat → OpOutcome Nat String) [0] =
      ⟨some (Except.error (FetchError.invalidArgument
        "maxConcurrency must be a positive integer")), 0⟩ ∧
    ∀ (errs : List String) (msg : String) (failed : List (Nat × String)),
      (FetchError.invalidArgument
        "maxConcurrency must be a positive integer" : FetchError String)
        ≠ FetchError.aggregate errs msg failed :=
  fetchAll_invalid_limit [10] 0 (fun u => OpOutcome.resolve u) [0] (by decide)

/-- Witness for C6: the same run with a synchronously-throwing and an
asynchronously-rejecting operation function. -/
theorem sync_throw_like_async_reject_witness :
    fetchAll [10, 20] 2
        (fun u => OpOutcome.syncThrow "boom" : Nat → OpOutcome Nat String)
        [0, 0] =
      fetchAll [10, 20] 2
        (fun u => OpOutcome.asyncReject "boom" : Nat → OpOutcome Nat String)
        [0, 0] :=
  (sync_throw_like_async_reject (α := Nat) (R := Nat) (E := String)).2
    [10, 20] 2 (fun u => OpOutcome.syncThrow "boom")
    (fun u => OpOutcome.asyncReject "boom") [0, 0] (fun u => rfl)

/-- Witness for C7 at a concrete mixed run. -/
theorem fetchAll_index_partition_witness :
    ((runPipeline (fun i => if i = 1 then OpOutcome.syncThrow "boom"
        else OpOutcome.resolve i : Nat → OpOutcome Nat String)
      (effectiveMaxConcurrency 2 3) 3 [0, 0, 0]).failedRequests.map
        Prod.fst).Nodup ∧
    ∀ i, i < 3 →
      ((∃ v, (runPipeline (fun i => if i = 1 then OpOutcome.syncThrow "boom"
          else OpOutcome.resolve i : Nat → OpOutcome Nat String)
          (effectiveMaxConcurrency 2 3) 3 [0, 0, 0]).results[i]?
            = some (some v)) ∧
        ∀ e, (i, e) ∉ (runPipeline (fun i => if i = 1 then OpOutcome.syncThrow "boom"
          else OpOutcome.resolve i : Nat → OpOutcome Nat String)
          (effectiveMaxConcurrency 2 3) 3 [0, 0, 0]).failedRequests) ∨
      ((runPipeline (fun i => if i = 1 then OpOutcome.syncThrow "boom"
          else OpOutcome.resolve i : Nat → OpOutcome Nat String)
          (effectiveMaxConcurrency 2 3) 3 [0, 0, 0]).results[i]? = some none ∧
        ∃ e, (i, e) ∈ (runPipeline (fun i => if i = 1 then OpOutcome.syncThrow "boom"
          else OpOutcome.resolve i : Nat → OpOutcome Nat String)
          (effectiveMaxConcurrency 2 3) 3 [0, 0, 0]).failedRequests) :=
  fetchAll_index_partition
    (fun i => if i = 1 then OpOutcome.syncThrow "boom" else OpOutcome.resolve i)
    2 3 [0, 0, 0] (by decide) (by decide) (by decide)

/-- Witness for C8 at a concrete valid limit. -/
theorem fetchAll_empty_input_witness :
    fetchAll ([] : List Nat) 1
        (fun u => OpOutcome.resolve u : Nat → OpOutcome Nat String) [] =
      ⟨some (Except.ok []), 0⟩ :=
  fetchAll_empty_input 1 (fun u => OpOutcome.resolve u) [] (by decide)

end FetchAll
